import Mathlib

/-!
Verification of the harmonic-series threshold program `hseries.c`.

The program's `long double` arithmetic is modelled exactly over `ℚ`
(all claims about the search are stated in exact arithmetic); the single
transcendental call `expl` is modelled by `Real.exp`, and the C cast of a
nonnegative `long double` to `unsigned long` (which truncates the decimal
portion) is modelled by `Nat.floor`.
-/

namespace HSeries

/-- The tolerance `DELTA` (`0.000000001L`, hseries.c line 32). -/
def DELTA : ℚ := 0.000000001

/-- Band-selected ratio for the initial guess: the `if (M >= 20.0L) ...`
chain of hseries.c lines 95-105 together with the `EM_N_RATIO*` constants
of lines 40-45 (`EM_N_RATIO_COLOSSAL`, `_HUGE`, `_VERY_LARGE`, `_LARGE`,
`_MEDIUM`, and the base `EM_N_RATIO`). -/
def ratioQ (M : ℚ) : ℚ :=
  if 20 ≤ M then 0.5614595
  else if 18 ≤ M then 0.5614596
  else if 16 ≤ M then 0.56146
  else if 12 ≤ M then 0.56147
  else if 9 ≤ M then 0.5618
  else 0.564

/-- The initial guess `n = (unsigned long)(expl(M) * ratio)`
(hseries.c lines 95-105). -/
noncomputable def estimate (M : ℚ) : ℕ :=
  Nat.floor (Real.exp (M : ℝ) * (ratioQ M : ℝ))

/-- The ascending accumulation `for (i = nStart; i <= nEnd; i++) sum += 1.0L/i`
of hseries.c lines 64-65, as a tail recursion on the number of remaining
iterations: `sumLoop c i s` adds `1/i, 1/(i+1), ..., 1/(i+c-1)` to `s` in
ascending order. The rational model sets `1/(0:ℚ) = 0`, whereas the C
program computes `1.0L/0 = +inf` when a range crosses `i = 0`, so the model
is exact only for ranges that do not span zero; theorems about general
ranges carry that restriction (the program only ever sums from 1). -/
def sumLoop : ℕ → ℤ → ℚ → ℚ
  | 0, _, s => s
  | c + 1, i, s => sumLoop c (i + 1) (s + 1 / (i : ℚ))

/-- `harmonicSeriesEx(nStart, nEnd)` (hseries.c lines 52-68): defensive
guard returning 0 when `nStart == 0 || nEnd == 0 || nStart > nEnd`, then
the ascending accumulation over `i ∈ [nStart, nEnd]`. The guard (copied
from C) only excludes zero endpoints, so for `nStart < 0 < nEnd` the C
function returns `+inf` while this rational model skips the zero term; see
the `sumLoop` doc comment. -/
def harmonicSeriesEx (nStart nEnd : ℤ) : ℚ :=
  if (nStart = 0 ∨ nEnd = 0) ∨ nEnd < nStart then 0
  else sumLoop (nEnd + 1 - nStart).toNat nStart 0

/-- `harmonicSeries(n)` (hseries.c lines 71-75). -/
def harmonicSeries (n : ℤ) : ℚ := harmonicSeriesEx 1 n

/-- State of the refinement loop: current guess `n`, running `sum`, the
report global `G_sum`, and the iteration counter `num_tests`. -/
structure RState where
  n : ℕ
  sum : ℚ
  gsum : ℚ
  tests : ℕ
deriving DecidableEq

/-- The refinement loop of hseries.c lines 110-123:
`while ((sum - M) > -DELTA && n > 0) { num_tests++; G_sum = sum; sum -= 1.0L/n; n--; }`.
Structural recursion on `n` mirrors the loop being bounded by `n` reaching 0. -/
def refineLoop (M : ℚ) : ℕ → ℚ → ℚ → ℕ → RState
  | 0, sum, gsum, tests => ⟨0, sum, gsum, tests⟩
  | n + 1, sum, gsum, tests =>
    if -DELTA < sum - M then
      refineLoop M n (sum - 1 / ((n : ℚ) + 1)) sum (tests + 1)
    else ⟨n + 1, sum, gsum, tests⟩

/-- `hseriesThreshold(M)` together with the value the global `G_sum` holds
when it returns (hseries.c lines 78-134): initial guess, one full
summation, `G_sum = sum` (line 108), the refinement loop, `return n + 1UL`. -/
noncomputable def hseriesThresholdFull (M : ℚ) : ℕ × ℚ :=
  let n0 := estimate M
  let s0 := harmonicSeries (n0 : ℤ)
  let r := refineLoop M n0 s0 s0 0
  (r.n + 1, r.gsum)

/-- The value returned by `hseriesThreshold(M)`. -/
noncomputable def hseriesThreshold (M : ℚ) : ℕ := (hseriesThresholdFull M).1

/-- The value of the global `G_sum` after `hseriesThreshold M` returns. -/
noncomputable def lastGSum (M : ℚ) : ℚ := (hseriesThresholdFull M).2

/-- The spec's ordered band table: (lower bound, tuned constant) pairs,
highest band first. -/
def ratioTable : List (ℚ × ℚ) :=
  [(20, 0.5614595), (18, 0.5614596), (16, 0.56146), (12, 0.56147), (9, 0.5618)]

/-- Band selection as the spec's design notes describe it: an ordered list
of (lower-bound, constant) pairs searched linearly, defaulting to the
below-9 constant. -/
def ratioSpec (M : ℚ) : ℚ :=
  ((ratioTable.find? (fun p => decide (p.1 ≤ M))).map Prod.snd).getD 0.564

/-- Exit outcome of `main` (hseries.c lines 137-167), abstracting the argv
string into the parsed value `M` and whether `strtold` consumed the whole
argument (`*end == '\0'`, line 149). -/
inductive MainStatus where
  | usageError
  | parseError
  | domainError
  | ok
deriving DecidableEq

/-- Result of `main`: which branch was taken, the process exit code, and
the Estimator/Refiner output if it ran at all. -/
structure MainResult where
  status : MainStatus
  exitCode : ℤ
  thresholdRun : Option (ℕ × ℚ)
deriving DecidableEq

/-- `main` (hseries.c lines 137-167): argument-count check, then the
`*end != '\0'` parse check, then the `M < 0.0L` domain check, and only
then the call to `hseriesThreshold`. -/
noncomputable def mainModel (argc : ℕ) (fullyConsumed : Bool) (M : ℚ) : MainResult :=
  if argc ≠ 2 then ⟨.usageError, -1, none⟩
  else if fullyConsumed = false then ⟨.parseError, -1, none⟩
  else if M < 0 then ⟨.domainError, -1, none⟩
  else ⟨.ok, 0, some (hseriesThresholdFull M)⟩

/-! ### Bridge lemmas between the embedded code and mathematical sums -/

lemma iccSuccRight (a b : ℤ) (h : a ≤ b + 1) :
    Finset.Icc a (b + 1) = insert (b + 1) (Finset.Icc a b) := by
  ext x
  simp only [Finset.mem_Icc, Finset.mem_insert]
  omega

lemma iccInsertLeft (a b : ℤ) (h : a ≤ b) :
    Finset.Icc a b = insert a (Finset.Icc (a + 1) b) := by
  ext x
  simp only [Finset.mem_Icc, Finset.mem_insert]
  omega

lemma sumLoop_eq_icc (c : ℕ) :
    ∀ (i : ℤ) (s : ℚ), sumLoop c i s = s + ∑ j ∈ Finset.Icc i (i + (c : ℤ) - 1), 1 / (j : ℚ) := by
  induction c with
  | zero =>
    intro i s
    rw [sumLoop, Finset.Icc_eq_empty (by omega), Finset.sum_empty, add_zero]
  | succ c ih =>
    intro i s
    rw [sumLoop, ih]
    have hb2 : Finset.Icc (i + 1) (i + 1 + (c : ℤ) - 1) = Finset.Icc (i + 1) (i + c) := by
      congr 1
      ring
    have hb : Finset.Icc i (i + ((c + 1 : ℕ) : ℤ) - 1) = Finset.Icc i (i + c) := by
      congr 1
      push_cast
      ring
    have hmem : i ∉ Finset.Icc (i + 1) (i + (c : ℤ)) := by
      simp only [Finset.mem_Icc]
      omega
    rw [hb2, hb, iccInsertLeft i (i + c) (by omega), Finset.sum_insert hmem]
    ring

lemma harmonicSeriesEx_eq_sum {s e : ℤ} (hs : s ≠ 0) (he : e ≠ 0) (hle : s ≤ e) :
    harmonicSeriesEx s e = ∑ j ∈ Finset.Icc s e, 1 / (j : ℚ) := by
  have hb : Finset.Icc s (s + (((e + 1 - s).toNat : ℕ) : ℤ) - 1) = Finset.Icc s e := by
    congr 1
    omega
  rw [harmonicSeriesEx, if_neg (by push_neg; exact ⟨⟨hs, he⟩, by omega⟩),
    sumLoop_eq_icc, zero_add, hb]

lemma icc_one_eq_harmonic (n : ℕ) :
    ∑ j ∈ Finset.Icc (1 : ℤ) n, 1 / (j : ℚ) = harmonic n := by
  induction n with
  | zero => simp
  | succ n ih =>
    have h1 : ((n + 1 : ℕ) : ℤ) = (n : ℤ) + 1 := by push_cast; ring
    rw [h1, iccSuccRight 1 n (by omega), Finset.sum_insert (by simp),
      ih, harmonic_succ]
    push_cast
    ring

/-- The full summation `harmonicSeries(n)` computes the `n`-th harmonic number. -/
lemma harmonicSeries_eq_harmonic (n : ℕ) : harmonicSeries (n : ℤ) = harmonic n := by
  cases n with
  | zero => simp [harmonicSeries, harmonicSeriesEx]
  | succ n =>
    rw [harmonicSeries, harmonicSeriesEx_eq_sum one_ne_zero (by positivity) (by omega),
      icc_one_eq_harmonic]

lemma harmonic_one_eq : harmonic 1 = 1 := by
  norm_num [harmonic_succ]

/-- Subtracting the top term: the incremental update of hseries.c line 121. -/
lemma harmonic_sub_top (n : ℕ) :
    harmonic (n + 1) - 1 / ((n : ℚ) + 1) = harmonic n := by
  rw [harmonic_succ]
  push_cast
  ring

/-! ### Behaviour of the refinement loop -/

/-- If the loop guard fails at entry, the loop leaves the state unchanged. -/
lemma refineLoop_stop {M sum : ℚ} (n : ℕ) (g : ℚ) (t : ℕ)
    (h : ¬ (-DELTA < sum - M)) : refineLoop M n sum g t = ⟨n, sum, g, t⟩ := by
  cases n with
  | zero => rfl
  | succ n => rw [refineLoop, if_neg h]

/-- Loop invariant of the running sum: started at `sum == harmonic n`, the
accumulator equals the harmonic number of the current guess at every step,
in particular at the final state. -/
lemma refineLoop_sum_inv (n : ℕ) :
    ∀ (M g : ℚ) (t : ℕ),
      (refineLoop M n (harmonic n) g t).sum = harmonic (refineLoop M n (harmonic n) g t).n := by
  induction n with
  | zero => intro M g t; rfl
  | succ n ih =>
    intro M g t
    by_cases h : -DELTA < harmonic (n + 1) - M
    · rw [refineLoop, if_pos h, harmonic_sub_top]
      exact ih M (harmonic (n + 1)) (t + 1)
    · rw [refineLoop, if_neg h]

/-- The loop only walks downward, exits with the guard false or `n = 0`,
and counts one test per unit walked. -/
lemma refineLoop_exit (n : ℕ) :
    ∀ (M sum g : ℚ) (t : ℕ),
      (refineLoop M n sum g t).n ≤ n ∧
      ((refineLoop M n sum g t).sum - M ≤ -DELTA ∨ (refineLoop M n sum g t).n = 0) ∧
      (refineLoop M n sum g t).tests = t + (n - (refineLoop M n sum g t).n) := by
  induction n with
  | zero => intro M sum g t; exact ⟨le_refl 0, Or.inr rfl, by simp [refineLoop]⟩
  | succ n ih =>
    intro M sum g t
    by_cases h : -DELTA < sum - M
    · rw [refineLoop, if_pos h]
      obtain ⟨h1, h2, h3⟩ := ih M (sum - 1 / ((n : ℚ) + 1)) sum (t + 1)
      exact ⟨le_trans h1 (Nat.le_succ n), h2, by omega⟩
    · rw [refineLoop, if_neg h]
      exact ⟨le_refl _, Or.inl (by linarith [not_lt.mp h]), by simp⟩

/-- Crossing property of the loop: started at `sum == harmonic n` with the
guard true, the final guess `m` satisfies `harmonic (m+1) > M - DELTA`, and
either `harmonic m ≤ M - DELTA` or the loop ran out at `m = 0` with `M < DELTA`. -/
lemma refineLoop_crossing (n : ℕ) :
    ∀ (M g : ℚ) (t : ℕ), -DELTA < harmonic n - M →
      -DELTA < harmonic ((refineLoop M n (harmonic n) g t).n + 1) - M ∧
      (harmonic (refineLoop M n (harmonic n) g t).n ≤ M - DELTA ∨
        ((refineLoop M n (harmonic n) g t).n = 0 ∧ M < DELTA)) := by
  induction n with
  | zero =>
    intro M g t h0
    have hM : M < DELTA := by
      simpa [harmonic_zero, DELTA] using h0
    refine ⟨?_, Or.inr ⟨rfl, hM⟩⟩
    show -DELTA < harmonic 1 - M
    rw [harmonic_one_eq]
    rw [DELTA] at hM ⊢
    linarith
  | succ n ih =>
    intro M g t h0
    rw [refineLoop, if_pos h0, harmonic_sub_top]
    by_cases h1 : -DELTA < harmonic n - M
    · exact ih M (harmonic (n + 1)) (t + 1) h1
    · rw [refineLoop_stop n (harmonic (n + 1)) (t + 1) h1]
      exact ⟨h0, Or.inl (by linarith [not_lt.mp h1])⟩

/-! ### The DELTA-shifted crossing point and the exact loop characterization -/

lemma harmonic_mono {a b : ℕ} (h : a ≤ b) : harmonic a ≤ harmonic b := by
  induction b, h using Nat.le_induction with
  | base => exact le_refl _
  | succ b hb ih =>
    refine ih.trans ?_
    rw [harmonic_succ]
    have : (0 : ℚ) ≤ (↑(b + 1))⁻¹ := by positivity
    linarith

lemma harmonic_add_div_le (n : ℕ) (hn : 0 < n) :
    ∀ m : ℕ, harmonic n + (m : ℚ) / ((n : ℚ) + m) ≤ harmonic (n + m) := by
  intro m
  induction m with
  | zero => simp
  | succ m ih =>
    have hs : (0 : ℚ) < (n : ℚ) + m := by positivity
    have hs1 : (0 : ℚ) < (n : ℚ) + m + 1 := by positivity
    have key : ((m : ℚ) + 1) / ((n : ℚ) + m + 1) ≤ (m : ℚ) / ((n : ℚ) + m) + 1 / ((n : ℚ) + m + 1) := by
      rw [div_add_div _ _ (ne_of_gt hs) (ne_of_gt hs1), div_le_div_iff₀ hs1 (by positivity)]
      have hm : (0 : ℚ) ≤ (m : ℚ) := Nat.cast_nonneg m
      nlinarith
    have hh : harmonic (n + (m + 1)) = harmonic (n + m) + 1 / ((n : ℚ) + m + 1) := by
      rw [show n + (m + 1) = (n + m) + 1 from rfl, harmonic_succ]
      push_cast
      ring
    rw [hh]
    push_cast
    have hgoal : harmonic n + ((m : ℚ) + 1) / ((n : ℚ) + ((m : ℚ) + 1)) ≤
        harmonic (n + m) + 1 / ((n : ℚ) + m + 1) := by
      have hre : (n : ℚ) + ((m : ℚ) + 1) = (n : ℚ) + m + 1 := by ring
      rw [hre]
      linarith
    exact hgoal

/-- The classical doubling bound: `harmonic (2^k) ≥ 1 + k/2`, so the
harmonic numbers are unbounded. -/
lemma one_add_half_mul_le_harmonic_pow (k : ℕ) : 1 + (k : ℚ) / 2 ≤ harmonic (2 ^ k) := by
  induction k with
  | zero => rw [pow_zero, harmonic_one_eq]; norm_num
  | succ k ih =>
    have h2 := harmonic_add_div_le (2 ^ k) (by positivity) (2 ^ k)
    have h3 : (((2 : ℕ) ^ k : ℕ) : ℚ) / (((2 : ℕ) ^ k : ℕ) + ((2 : ℕ) ^ k : ℕ)) = 1 / 2 := by
      have hp : ((2 : ℚ) ^ k) ≠ 0 := by positivity
      push_cast
      field_simp
      ring
    have h4 : (2 : ℕ) ^ (k + 1) = 2 ^ k + 2 ^ k := by ring
    rw [h4]
    have hstep : harmonic (2 ^ k) + 1 / 2 ≤ harmonic (2 ^ k + 2 ^ k) := by
      calc harmonic (2 ^ k) + 1 / 2
          = harmonic (2 ^ k) + (((2 : ℕ) ^ k : ℕ) : ℚ) / (((2 : ℕ) ^ k : ℕ) + ((2 : ℕ) ^ k : ℕ)) := by
            rw [h3]
        _ ≤ harmonic (2 ^ k + 2 ^ k) := h2
    have hc : 1 + ((k + 1 : ℕ) : ℚ) / 2 = (1 + (k : ℚ) / 2) + 1 / 2 := by push_cast; ring
    rw [hc]
    linarith

/-- The harmonic numbers eventually exceed every rational. -/
lemma exists_harmonic_gt (q : ℚ) : ∃ j : ℕ, q < harmonic j := by
  obtain ⟨k, hk⟩ := exists_nat_gt (2 * (q - 1))
  exact ⟨2 ^ k, lt_of_lt_of_le (by linarith) (one_add_half_mul_le_harmonic_pow k)⟩

/-- The minimal crossing point for the DELTA-shifted threshold: the least
`j` with `harmonic j > M - DELTA` (computable: `Nat.find` over a decidable
comparison of rationals). -/
def shiftedCrossing (M : ℚ) : ℕ := Nat.find (exists_harmonic_gt (M - DELTA))

lemma shiftedCrossing_spec (M : ℚ) : M - DELTA < harmonic (shiftedCrossing M) :=
  Nat.find_spec (exists_harmonic_gt (M - DELTA))

lemma shiftedCrossing_min {M : ℚ} {j : ℕ} (h : j < shiftedCrossing M) :
    harmonic j ≤ M - DELTA :=
  not_lt.mp (Nat.find_min (exists_harmonic_gt (M - DELTA)) h)

/-- Exact characterization of the final guess: from any start `n` with the
accumulator equal to `harmonic n`, the loop ends at
`min n (shiftedCrossing M - 1)` — it walks down to just below the shifted
crossing point when it can, and stays at `n` when the start is already
below it. -/
lemma refineLoop_final_n (M g : ℚ) (t n : ℕ) :
    (refineLoop M n (harmonic n) g t).n = min n (shiftedCrossing M - 1) := by
  by_cases had : -DELTA < harmonic n - M
  · obtain ⟨h1, h2⟩ := refineLoop_crossing n M g t had
    obtain ⟨hle, -, -⟩ := refineLoop_exit n M (harmonic n) g t
    rcases h2 with h | ⟨h0, hd⟩
    · have hfind_le : shiftedCrossing M ≤ (refineLoop M n (harmonic n) g t).n + 1 :=
        Nat.find_le (by linarith)
      have hgt : (refineLoop M n (harmonic n) g t).n < shiftedCrossing M := by
        by_contra hc
        push_neg at hc
        have hmono := harmonic_mono hc
        have hs := shiftedCrossing_spec M
        linarith
      have hsc : shiftedCrossing M = (refineLoop M n (harmonic n) g t).n + 1 := by omega
      rw [hsc, Nat.add_sub_cancel, min_eq_right hle]
    · have hp0 : M - DELTA < harmonic 0 := by
        rw [harmonic_zero]
        linarith
      have hsc0 : shiftedCrossing M = 0 := Nat.eq_zero_of_le_zero (Nat.find_le hp0)
      rw [hsc0, h0]
      simp
  · rw [refineLoop_stop n g t had]
    show n = min n (shiftedCrossing M - 1)
    have hn : harmonic n ≤ M - DELTA := by linarith [not_lt.mp had]
    have hgt : n < shiftedCrossing M := by
      by_contra hc
      push_neg at hc
      have hmono := harmonic_mono hc
      have hs := shiftedCrossing_spec M
      linarith
    exact (min_eq_left (by omega)).symm

/-- At `M = 1` the shifted crossing point is 1: `harmonic 1 = 1` already
exceeds `1 - DELTA`, while `harmonic 0 = 0` does not. -/
lemma shiftedCrossing_one : shiftedCrossing 1 = 1 := by
  rw [shiftedCrossing, Nat.find_eq_iff]
  refine ⟨by rw [harmonic_one_eq]; norm_num [DELTA], ?_⟩
  intro j hj
  have hj0 : j = 0 := by omega
  subst hj0
  rw [harmonic_zero]
  norm_num [DELTA]

/-! ### Concrete evaluations of the estimator and the search -/

lemma ratioQ_zero : ratioQ 0 = 0.564 := by norm_num [ratioQ]

lemma ratioQ_one : ratioQ 1 = 0.564 := by norm_num [ratioQ]

/-- At `M = 0` the initial guess truncates to 0: `e^0 * 0.564 = 0.564 < 1`. -/
lemma estimate_zero : estimate 0 = 0 := by
  rw [estimate, ratioQ_zero]
  have h0 : ((0 : ℚ) : ℝ) = 0 := by norm_num
  rw [h0, Real.exp_zero, one_mul, Nat.floor_eq_zero]
  norm_num

/-- At `M = 1` the initial guess is 1: `e * 0.564 ≈ 1.5331`. -/
lemma estimate_one : estimate 1 = 1 := by
  rw [estimate, ratioQ_one]
  have h1 : ((1 : ℚ) : ℝ) = 1 := by norm_num
  have hc : ((0.564 : ℚ) : ℝ) = 0.564 := by norm_num
  rw [h1, hc]
  have hgt := Real.exp_one_gt_d9
  have hlt := Real.exp_one_lt_d9
  have hlow : (1 : ℝ) ≤ Real.exp 1 * 0.564 := by nlinarith
  have hhigh : Real.exp 1 * 0.564 < 1 + 1 := by nlinarith
  rw [Nat.floor_eq_iff (by linarith)]
  exact ⟨by exact_mod_cast hlow, by exact_mod_cast hhigh⟩

lemma harmonicSeries_zero : harmonicSeries 0 = 0 := by
  norm_num [harmonicSeries, harmonicSeriesEx]

lemma harmonicSeries_one : harmonicSeries 1 = 1 := by
  norm_num [harmonicSeries, harmonicSeriesEx, sumLoop]

/-- Full evaluation of the search at `M = 0`: guess 0, the loop never runs,
`N = 1` is returned but `G_sum` keeps the pre-loop value 0. -/
lemma hfull_zero : hseriesThresholdFull 0 = (1, 0) := by
  rw [hseriesThresholdFull, estimate_zero]
  norm_num [harmonicSeries_zero, refineLoop]

/-- Full evaluation of the search at `M = 1`: guess 1, sum 1.0, the guard
`(1.0 - 1.0) > -DELTA` holds, so the loop steps to `n = 0` and returns 1. -/
lemma hfull_one : hseriesThresholdFull 1 = (1, 1) := by
  rw [hseriesThresholdFull, estimate_one]
  norm_num [harmonicSeries_one, refineLoop, DELTA]

lemma hthr_one : hseriesThreshold 1 = 1 := by
  rw [hseriesThreshold, hfull_one]

lemma ratioQ_eq_ratioSpec (M : ℚ) : ratioQ M = ratioSpec M := by
  rw [ratioQ, ratioSpec, ratioTable]
  by_cases h20 : 20 ≤ M <;> by_cases h18 : 18 ≤ M <;> by_cases h16 : 16 ≤ M <;>
    by_cases h12 : 12 ≤ M <;> by_cases h9 : 9 ≤ M <;>
    simp [List.find?, h20, h18, h16, h12, h9]

lemma one_le_hthr (M : ℚ) : 1 ≤ hseriesThreshold M := by
  simp only [hseriesThreshold, hseriesThresholdFull]
  omega

/-! ### Theorems for the claims -/

/-- C2, counterexample: contrary to the claim, for the input M = 1.0 the
threshold search does not return N = 2. -/
theorem threshold_at_one_ne_two : hseriesThreshold 1 ≠ 2 := by
  rw [hthr_one]
  decide

/-- C2, amended: for M = 1.0 the threshold search returns N = 1: the DELTA
tolerance treats sum(1/i,1,1) = 1.0 as still exceeding M (1.0 - 1.0 > -DELTA),
so the loop steps past n = 1 and returns n + 1 = 1. -/
theorem threshold_at_one_eq_one : hseriesThreshold 1 = 1 := hthr_one

/-- C1, counterexample: at the valid threshold M = 1 (not the M ≤ 0 edge
case) the returned N = 1 is not a crossing point: sum(1/i,1,N) = 1 is not
strictly greater than M, while the true minimal crossing point is 2. -/
theorem threshold_not_minimal_at_one :
    hseriesThreshold 1 = 1 ∧ ¬ ((1 : ℚ) < harmonic (hseriesThreshold 1)) ∧
    (1 : ℚ) < harmonic 2 := by
  refine ⟨hthr_one, ?_, ?_⟩
  · rw [hthr_one, harmonic_one_eq]
    norm_num
  · rw [show (2 : ℕ) = 1 + 1 from rfl, harmonic_succ, harmonic_one_eq]
    norm_num

/-- C1, amended: for every valid M ≥ 0 the returned N is exactly
`min (estimate M) (shiftedCrossing M - 1) + 1`, where `shiftedCrossing M`
is the minimal crossing point for the DELTA-shifted threshold — the least j
with sum(1/i,1,j) > M - DELTA, the shift being what the M = 1.0
counterexample forces (the loop guard treats sums within DELTA of M as
still exceeding it). Consequently sum(1/i,1,N-1) ≤ M - DELTA always holds
(or N = 1 with M < DELTA when every partial sum exceeds the shifted
threshold), and whenever the initial estimate is at or above the shifted
crossing point, N is that minimal shifted crossing point. -/
theorem threshold_characterization (M : ℚ) (_hM : 0 ≤ M) :
    hseriesThreshold M = min (estimate M) (shiftedCrossing M - 1) + 1 ∧
    M - DELTA < harmonic (shiftedCrossing M) ∧
    (∀ j : ℕ, j < shiftedCrossing M → harmonic j ≤ M - DELTA) ∧
    (harmonic (hseriesThreshold M - 1) ≤ M - DELTA ∨
      (hseriesThreshold M = 1 ∧ M < DELTA)) := by
  have he : hseriesThreshold M =
      (refineLoop M (estimate M) (harmonic (estimate M)) (harmonic (estimate M)) 0).n + 1 := by
    simp only [hseriesThreshold, hseriesThresholdFull, harmonicSeries_eq_harmonic]
  have hchar : hseriesThreshold M = min (estimate M) (shiftedCrossing M - 1) + 1 := by
    rw [he, refineLoop_final_n]
  refine ⟨hchar, shiftedCrossing_spec M, fun j hj => shiftedCrossing_min hj, ?_⟩
  rw [hchar, Nat.add_sub_cancel]
  rcases Nat.eq_zero_or_pos (shiftedCrossing M) with h0 | hpos
  · right
    have hs := shiftedCrossing_spec M
    rw [h0, harmonic_zero] at hs
    refine ⟨?_, by linarith⟩
    rw [h0]
    simp
  · left
    exact shiftedCrossing_min (lt_of_le_of_lt (min_le_right _ _) (by omega))

/-- C1, witness: the characterization applied at M = 1, where the estimate
is 1 and the shifted crossing point is 1, giving the concrete N = 1. -/
theorem threshold_characterization_witness :
    (hseriesThreshold 1 = min (estimate 1) (shiftedCrossing 1 - 1) + 1 ∧
      (1 : ℚ) - DELTA < harmonic (shiftedCrossing 1) ∧
      (∀ j : ℕ, j < shiftedCrossing 1 → harmonic j ≤ 1 - DELTA) ∧
      (harmonic (hseriesThreshold 1 - 1) ≤ 1 - DELTA ∨
        (hseriesThreshold 1 = 1 ∧ (1 : ℚ) < DELTA))) ∧
    hseriesThreshold 1 = 1 := by
  have h := threshold_characterization 1 (by norm_num)
  refine ⟨h, ?_⟩
  rw [h.1, estimate_one, shiftedCrossing_one]
  decide

/-- C3, counterexample: at M = 0 the initial guess is 0 while the true
minimal crossing point is 1 (harmonic 0 = 0 ≤ 0 < 1 = harmonic 1), so the
guess is strictly below the crossing point. -/
theorem estimate_below_crossing_at_zero :
    estimate 0 = 0 ∧ harmonic 0 ≤ 0 ∧ (0 : ℚ) < harmonic 1 := by
  refine ⟨estimate_zero, le_of_eq harmonic_zero, ?_⟩
  rw [harmonic_one_eq]
  norm_num

/-- C3, amended: the initial guess is floor(e^M * ratio(M)) with ratio(M)
selected by the spec's ordered band table (bands at M ≥ 20, 18, 16, 12, 9
and below 9), but it is not always at or above the true minimal crossing
point: at M = 0 the floor truncates the guess to 0, below the crossing
point 1; the refinement loop then never runs and `n + 1` compensates. -/
theorem estimate_band_structure :
    (∀ M : ℚ, ratioQ M = ratioSpec M) ∧
    (∀ M : ℚ, estimate M = Nat.floor (Real.exp (M : ℝ) * (ratioSpec M : ℝ))) ∧
    estimate 0 = 0 := by
  refine ⟨ratioQ_eq_ratioSpec, fun M => ?_, estimate_zero⟩
  rw [estimate, ratioQ_eq_ratioSpec]

/-- C4: the running-sum invariant. The one full summation at the initial
guess computes the harmonic number, and from any state whose accumulator
equals `harmonic n` every loop step (subtract 1/n, decrement n) preserves
`sum = harmonic n`, in particular down to the final state. -/
theorem runningSum_invariant (M g : ℚ) (t n : ℕ) :
    harmonicSeries (n : ℤ) = harmonic n ∧
    (refineLoop M n (harmonic n) g t).sum = harmonic (refineLoop M n (harmonic n) g t).n :=
  ⟨harmonicSeries_eq_harmonic n, refineLoop_sum_inv n M g t⟩

/-- C5, code evaluated at the failing input: for M = 0 the search returns
N = 1 but leaves G_sum = 0 (the loop body never runs because the initial
guess is 0), while the harmonic sum at the returned N is harmonic 1 = 1. -/
theorem gsum_stale_at_zero :
    hseriesThreshold 0 = 1 ∧ lastGSum 0 = 0 ∧ harmonic 1 = 1 := by
  refine ⟨?_, ?_, harmonic_one_eq⟩
  · rw [hseriesThreshold, hfull_zero]
  · rw [lastGSum, hfull_zero]

/-- C9: the refinement loop terminates: the final guess never exceeds the
initial one, the loop exits only with the guard false or n = 0, each
iteration decrements n by exactly one (num_tests counts the walked units),
and the search always returns a value N ≥ 1. -/
theorem refineLoop_terminates (M sum g : ℚ) (n t : ℕ) :
    (refineLoop M n sum g t).n ≤ n ∧
    ((refineLoop M n sum g t).sum - M ≤ -DELTA ∨ (refineLoop M n sum g t).n = 0) ∧
    (refineLoop M n sum g t).tests = t + (n - (refineLoop M n sum g t).n) ∧
    1 ≤ hseriesThreshold M := by
  obtain ⟨h1, h2, h3⟩ := refineLoop_exit n M sum g t
  exact ⟨h1, h2, h3, one_le_hthr M⟩

/-- C8: each of the three error conditions (wrong argument count, input not
fully consumed, negative value) makes main exit non-zero with a distinct
error status and without running the estimator/refiner; on success the exit
code is 0 and the threshold search runs. -/
theorem main_error_paths (argc : ℕ) (fullyConsumed : Bool) (M : ℚ) :
    ((argc ≠ 2 ∨ fullyConsumed = false ∨ M < 0) →
      (mainModel argc fullyConsumed M).exitCode ≠ 0 ∧
      (mainModel argc fullyConsumed M).thresholdRun = none ∧
      (mainModel argc fullyConsumed M).status ≠ .ok) ∧
    (argc = 2 → fullyConsumed = true → 0 ≤ M →
      (mainModel argc fullyConsumed M).exitCode = 0 ∧
      (mainModel argc fullyConsumed M).thresholdRun = some (hseriesThresholdFull M) ∧
      (mainModel argc fullyConsumed M).status = .ok) := by
  constructor
  · intro h
    by_cases ha : argc ≠ 2
    · simp only [mainModel, if_pos ha]
      exact ⟨by decide, by trivial, by decide⟩
    · by_cases hf : fullyConsumed = false
      · simp only [mainModel, if_neg ha, if_pos hf]
        exact ⟨by decide, by trivial, by decide⟩
      · have hM : M < 0 := by
          rcases h with h | h | h
          · exact absurd h ha
          · exact absurd h hf
          · exact h
        simp only [mainModel, if_neg ha, if_neg hf, if_pos hM]
        exact ⟨by decide, by trivial, by decide⟩
  · intro ha hf hM
    have h2 : ¬ (argc ≠ 2) := by simp [ha]
    have hf2 : ¬ (fullyConsumed = false) := by simp [hf]
    have hM2 : ¬ (M < 0) := not_lt.mpr hM
    simp only [mainModel, if_neg h2, if_neg hf2, if_neg hM2]
    exact ⟨by trivial, by trivial, by trivial⟩

/-- C8, witness: with three arguments main exits non-zero without running
the search; with two arguments and the fully-parsed value 1 it exits 0. -/
theorem main_error_paths_witness :
    (mainModel 3 true 1).exitCode ≠ 0 ∧ (mainModel 3 true 1).thresholdRun = none ∧
    (mainModel 2 true 1).exitCode = 0 := by
  obtain ⟨he, -⟩ := main_error_paths 3 true 1
  obtain ⟨-, hs⟩ := main_error_paths 2 true 1
  have h1 := he (Or.inl (by decide))
  have h2 := hs rfl rfl (by norm_num)
  exact ⟨h1.1, h1.2.1, h2.1⟩

/-- C6: the summation helper, given inclusive integer bounds, returns 0
whenever start is 0, end is 0 or start > end, and on every range that does
not span zero it returns the sum of 1/i for i in [start, end], accumulated
in ascending order (the `sumLoop` recursion steps from `nStart` upward);
`harmonicSeries n` equals `harmonicSeriesEx 1 n`. The `0 ∉ [start, end]`
hypothesis marks the ranges on which the rational model embeds the C loop
faithfully — when the range spans zero the C program computes `1.0L/0 =
+inf` at `i = 0`, so no finite-sum statement is made there. -/
theorem harmonicSeriesEx_contract (s e : ℤ) :
    ((s = 0 ∨ e = 0 ∨ e < s) → harmonicSeriesEx s e = 0) ∧
    (s ≠ 0 → e ≠ 0 → s ≤ e → (0 : ℤ) ∉ Finset.Icc s e →
      harmonicSeriesEx s e = ∑ j ∈ Finset.Icc s e, 1 / (j : ℚ)) ∧
    harmonicSeries e = harmonicSeriesEx 1 e := by
  refine ⟨?_, fun hs he hle _ => harmonicSeriesEx_eq_sum hs he hle, rfl⟩
  intro h
  rw [harmonicSeriesEx, if_pos (by tauto)]

/-- C6, witness: the helper on [2,4] — a range not containing zero —
equals the mathematical sum over [2,4], and the defensive guard fires on
start = 0. -/
theorem harmonicSeriesEx_contract_witness :
    harmonicSeriesEx 2 4 = ∑ j ∈ Finset.Icc (2 : ℤ) 4, 1 / (j : ℚ) ∧
    harmonicSeriesEx 0 5 = 0 := by
  obtain ⟨-, h2, -⟩ := harmonicSeriesEx_contract 2 4
  obtain ⟨h0, -, -⟩ := harmonicSeriesEx_contract 0 5
  exact ⟨h2 (by norm_num) (by norm_num) (by norm_num) (by decide), h0 (Or.inl rfl)⟩

/-! ### Model of the C library parse step used by main -/

/-- A `long double` value as produced by `strtold`: finite (modelled
exactly as a rational), infinite with a sign, or NaN. -/
inductive LDVal where
  | fin (q : ℚ)
  | inf (neg : Bool)
  | nanv
deriving DecidableEq

/-- Decimal digits to a natural number, most significant first. -/
def natOfDigits (ds : List Char) : ℕ := ds.foldl (fun a c => 10 * a + (c.toNat - 48)) 0

/-- Exponent part of a decimal literal: `e`/`E`, optional sign, digits;
consumed only when at least one digit follows, otherwise left untouched. -/
def parseExpPart (cs : List Char) : ℤ × List Char :=
  match cs with
  | 'e' :: r =>
    (match r with
     | '-' :: rr =>
       (if rr.takeWhile Char.isDigit = [] then (0, cs)
        else (-(natOfDigits (rr.takeWhile Char.isDigit) : ℤ), rr.dropWhile Char.isDigit))
     | '+' :: rr =>
       (if rr.takeWhile Char.isDigit = [] then (0, cs)
        else ((natOfDigits (rr.takeWhile Char.isDigit) : ℤ), rr.dropWhile Char.isDigit))
     | _ =>
       (if r.takeWhile Char.isDigit = [] then (0, cs)
        else ((natOfDigits (r.takeWhile Char.isDigit) : ℤ), r.dropWhile Char.isDigit)))
  | _ => (0, cs)

/-- Modelled from the spec: the C library function `strtold` (C99 7.22.1.3)
is not part of this repository's sources, yet main (hseries.c lines 145-153)
relies on its parsed value and end pointer. This model follows the
documented semantics for the subject input forms: optional leading spaces
and sign; a decimal significand with optional fraction and exponent; the
special spellings `inf`/`infinity` and `nan`; and, when no conversion can
be performed, value 0 with the whole input left unconsumed (`end == nptr`).
Hexadecimal literals, `nan(...)` payloads and uppercase spellings are
outside the subject inputs and treated as no conversion. -/
def strtoldChars (cs : List Char) : LDVal × List Char :=
  let ws := cs.dropWhile (fun c => c == ' ')
  let sr : Bool × List Char :=
    match ws with
    | '-' :: r => (true, r)
    | '+' :: r => (false, r)
    | _ => (false, ws)
  let neg := sr.1
  match sr.2 with
  | 'i' :: 'n' :: 'f' :: r1 =>
    (match r1 with
     | 'i' :: 'n' :: 'i' :: 't' :: 'y' :: r2 => (LDVal.inf neg, r2)
     | _ => (LDVal.inf neg, r1))
  | 'n' :: 'a' :: 'n' :: r1 => (LDVal.nanv, r1)
  | r0 =>
    let ip := r0.takeWhile Char.isDigit
    let r1 := r0.dropWhile Char.isDigit
    let fr : List Char × List Char :=
      match r1 with
      | '.' :: rr => (rr.takeWhile Char.isDigit, rr.dropWhile Char.isDigit)
      | _ => ([], r1)
    if ip = [] ∧ fr.1 = [] then (LDVal.fin 0, cs)
    else
      let mant : ℚ := (natOfDigits ip : ℚ) + (natOfDigits fr.1 : ℚ) / 10 ^ fr.1.length
      let ex := parseExpPart fr.2
      let v := mant * (10 : ℚ) ^ ex.1
      (LDVal.fin (if neg then -v else v), ex.2)

/-- The C comparison `M < 0.0L` on a strtold result: false for NaN and
positive infinity, true for negative infinity. -/
def ldIsNeg : LDVal → Bool
  | .fin q => decide (q < 0)
  | .inf neg => neg
  | .nanv => false

/-- Outcome of main's input handling for a single argument. -/
inductive ParseOutcome where
  | parseErrorOut
  | domainErrorOut
  | ranThreshold (v : LDVal)
deriving DecidableEq

/-- main's handling of the argument characters when argc = 2 (hseries.c
lines 145-161): `strtold`, the `*end != '\0'` test, the `M < 0.0L` test,
and otherwise the call to `hseriesThreshold` with the parsed value. -/
def mainOnArg (cs : List Char) : ParseOutcome :=
  let vr := strtoldChars cs
  if vr.2 ≠ [] then .parseErrorOut
  else if ldIsNeg vr.1 then .domainErrorOut
  else .ranThreshold vr.1

/-- C10: the validation accepts any argument that strtold fully consumes,
not only finite decimals: "inf" and "nan" parse to non-finite values that
are passed on to the threshold search, and the empty string parses as 0
with no leftover characters, so the ParseError branch does not fire. -/
theorem validation_accepts_specials :
    mainOnArg [] = .ranThreshold (.fin 0) ∧
    mainOnArg ['i', 'n', 'f'] = .ranThreshold (.inf false) ∧
    mainOnArg ['n', 'a', 'n'] = .ranThreshold .nanv := by
  refine ⟨?_, ?_, ?_⟩ <;> rfl

end HSeries
